import Mathlib

/-!
Verification of the middleware-chain library in `src/cppmiddleware.hpp`.

The C++ code is a single header: plain `Request`/`Response` records, a
handler type `MiddlewareFunc = void(Request&, Response&, Next)` where
`Next = std::function<void()>`, and a `MiddlewareChain` class holding a
`std::vector<MiddlewareFunc>` with three members: `use` (push_back),
`handle` (calls `execute(0, req, res)`), and the recursive `execute`.

Shallow embedding: the C++ handlers mutate `req`/`res` in place and the
`next` closure captures them by reference, so a handler's call of `next`
always runs the downstream chain on the current (mutated) state, and the
handler observes the downstream mutations when `next` returns.  In a pure
setting this is exactly state passing: a handler is a function from the
current state and a continuation `σ → σ` to a final state.  The state type
is kept as a parameter `σ` because the algorithm never inspects it (the
C++ only threads `Request&`/`Response&` through); the concrete `Ctx`
(a `Request`/`Response` pair) instantiates it, and an instrumented state
carrying an observation log (the log a C++ handler would append to through
its closure) instantiates it for the execution-order properties.
-/

/-- `struct Request` of `src/cppmiddleware.hpp` (lines 13-18).
`std::unordered_map` (unique keys, order irrelevant) is modelled as an
association list; a fresh map is empty either way. -/
structure Request where
  method : String := "GET"
  path : String := "/"
  headers : List (String × String) := []
  body : String := ""

/-- `struct Response` of `src/cppmiddleware.hpp` (lines 20-24). -/
structure Response where
  status : Int := 200
  headers : List (String × String) := []
  body : String := ""

/-- The `Request&, Response&` pair threaded through one dispatch. -/
structure Ctx where
  req : Request
  res : Response

/-- `using Next = std::function<void()>` — in the pure embedding the
continuation receives the current state (the C++ closure reads the live
`req`/`res` references instead). -/
abbrev Next (σ : Type) : Type := σ → σ

/-- `using MiddlewareFunc = std::function<void(Request&, Response&, Next)>`. -/
abbrev MiddlewareFunc (σ : Type) : Type := σ → Next σ → σ

/-- The `middleware_` vector of `MiddlewareChain`: its only data member. -/
abbrev MiddlewareChain (σ : Type) : Type := List (MiddlewareFunc σ)

/-- `MiddlewareChain::use`: `middleware_.push_back(func)`. -/
def use (chain : MiddlewareChain σ) (func : MiddlewareFunc σ) :
    MiddlewareChain σ :=
  chain ++ [func]

/-- `MiddlewareChain::execute` (lines 49-57): if `index >= middleware_.size()`
return; otherwise build `next = [this,index,&req,&res](){ execute(index+1,req,res); }`
and call `middleware_[index](req, res, next)`. -/
def execute (mws : MiddlewareChain σ) (index : Nat) (st : σ) : σ :=
  if h : index < mws.length then
    (mws.get ⟨index, h⟩) st (fun st2 => execute mws (index + 1) st2)
  else st
termination_by mws.length - index
decreasing_by simp_wf; omega

/-- `MiddlewareChain::handle`: `execute(0, req, res)`. -/
def handle (chain : MiddlewareChain σ) (st : σ) : σ :=
  execute chain 0 st

/-- Structural companion of `execute`: running the chain is running the
suffix of `middleware_` from the cursor, by recursion on that suffix. -/
def executeSuffix : MiddlewareChain σ → σ → σ
  | [], st => st
  | m :: rest, st => m st (fun st2 => executeSuffix rest st2)

theorem execute_eq_executeSuffix_aux (mws : MiddlewareChain σ) :
    ∀ (n index : Nat), mws.length - index ≤ n → ∀ st : σ,
      execute mws index st = executeSuffix (mws.drop index) st := by
  intro n
  induction n with
  | zero =>
    intro index hn st
    have hle : mws.length ≤ index := by omega
    rw [execute, dif_neg (by omega), List.drop_eq_nil_of_le hle]
    rfl
  | succ n ih =>
    intro index hn st
    by_cases hlt : index < mws.length
    · rw [execute, dif_pos hlt, List.drop_eq_getElem_cons hlt]
      show _ = (mws.get ⟨index, hlt⟩) st
          (fun st2 => executeSuffix (mws.drop (index + 1)) st2)
      have hcont : (fun st2 => execute mws (index + 1) st2)
          = (fun st2 => executeSuffix (mws.drop (index + 1)) st2) := by
        funext st2
        exact ih (index + 1) (by omega) st2
      rw [hcont]
    · rw [execute, dif_neg hlt, List.drop_eq_nil_of_le (by omega)]
      rfl

theorem execute_eq_executeSuffix (mws : MiddlewareChain σ) (index : Nat)
    (st : σ) : execute mws index st = executeSuffix (mws.drop index) st :=
  execute_eq_executeSuffix_aux mws (mws.length - index) index (Nat.le_refl _) st

theorem handle_eq_executeSuffix (chain : MiddlewareChain σ) (st : σ) :
    handle chain st = executeSuffix chain st := by
  rw [handle, execute_eq_executeSuffix, List.drop_zero]

/-!
Instrumented state for the execution-order properties.  A C++ handler may
close over an external observation log and append to it; purely, the log
is an extra state component `List Nat` next to the payload `α`, and a
handler appends its own registration index when it runs.
-/

/-- State carrying a payload plus the observation log of handler indices. -/
abbrev LogSt (α : Type) : Type := α × List Nat

/-- A handler that appends its index `i` to the log, transforms the
payload by `f`, and then unconditionally invokes its continuation exactly
once (tail call). -/
def loggedHandler (i : Nat) (f : α → α) : MiddlewareFunc (LogSt α) :=
  fun st next => next (f st.1, st.2 ++ [i])

/-- A handler that appends its index `i` to the log, transforms the
payload by `g`, and never invokes its continuation (short-circuit). -/
def haltHandler (i : Nat) (g : α → α) : MiddlewareFunc (LogSt α) :=
  fun st _ => (g st.1, st.2 ++ [i])

/-- The chain of logged pass-through handlers for the payload functions
`fs`, indexed consecutively from `k`. -/
def loggedChain (k : Nat) : List (α → α) → MiddlewareChain (LogSt α)
  | [] => []
  | f :: fs => loggedHandler k f :: loggedChain (k + 1) fs

/-- Left-to-right composition of the payload functions. -/
def applyAll (fs : List (α → α)) (a : α) : α :=
  fs.foldl (fun x f => f x) a

theorem loggedChain_length (k : Nat) (fs : List (α → α)) :
    (loggedChain k fs).length = fs.length := by
  induction fs generalizing k with
  | nil => rfl
  | cons f fs ih => simp [loggedChain, ih]

theorem executeSuffix_loggedChain_append (fs : List (α → α)) :
    ∀ (k : Nat) (rest : MiddlewareChain (LogSt α)) (a : α) (l : List Nat),
      executeSuffix (loggedChain k fs ++ rest) (a, l)
        = executeSuffix rest (applyAll fs a, l ++ List.range' k fs.length) := by
  induction fs with
  | nil =>
    intro k rest a l
    simp [loggedChain, applyAll, List.range']
  | cons f fs ih =>
    intro k rest a l
    show executeSuffix (loggedHandler k f :: (loggedChain (k + 1) fs ++ rest)) (a, l) = _
    rw [executeSuffix]
    show executeSuffix (loggedChain (k + 1) fs ++ rest) (f a, l ++ [k]) = _
    rw [ih (k + 1) rest (f a) (l ++ [k])]
    have h1 : applyAll fs (f a) = applyAll (f :: fs) a := rfl
    have h2 : (l ++ [k]) ++ List.range' (k + 1) fs.length
        = l ++ List.range' k (f :: fs).length := by
      rw [List.append_assoc]
      simp [List.range'_succ]
    rw [h1, h2]

theorem executeSuffix_loggedChain (fs : List (α → α)) (k : Nat) (a : α)
    (l : List Nat) :
    executeSuffix (loggedChain k fs) (a, l)
      = (applyAll fs a, l ++ List.range' k fs.length) := by
  have h := executeSuffix_loggedChain_append fs k [] a l
  rwa [List.append_nil] at h

/-- C1: for every chain with N registered handlers, each of which
unconditionally invokes its continuation exactly once, dispatch (`handle`)
executes all N handlers exactly once each, in exactly the order they were
registered: the observation log comes out as `[0, 1, ..., N-1]` and the
payload is the in-order composition of the handlers' effects. -/
theorem dispatch_runs_all_handlers_once_in_order (fs : List (α → α))
    (a : α) :
    handle (loggedChain 0 fs) (a, ([] : List Nat))
      = (applyAll fs a, List.range fs.length) := by
  rw [handle_eq_executeSuffix, executeSuffix_loggedChain,
    List.range_eq_range', List.nil_append]

/-- C2: if handler k does not invoke its continuation (and handlers
0..k-1 each invoke theirs once), dispatch executes exactly handlers 0
through k and never executes handlers k+1..N-1: with `k = fs.length`, the
log is `[0, ..., k]` and the result is independent of the arbitrary
handlers `rest` registered after the halting one. -/
theorem dispatch_short_circuits_after_halting_handler
    (fs : List (α → α)) (g : α → α) (rest : MiddlewareChain (LogSt α))
    (a : α) :
    handle (loggedChain 0 fs ++ haltHandler fs.length g :: rest)
        (a, ([] : List Nat))
      = (g (applyAll fs a), List.range (fs.length + 1)) := by
  rw [handle_eq_executeSuffix, executeSuffix_loggedChain_append,
    executeSuffix]
  show (g (applyAll fs a), ([] ++ List.range' 0 fs.length) ++ [fs.length]) = _
  rw [List.nil_append, ← List.range_eq_range', ← List.range_succ]

/-- C4: for every chain with zero registered handlers, dispatch returns
(it is a total function) and leaves the Request and the Response exactly
unchanged. -/
theorem dispatch_empty_chain_is_identity (c : Ctx) :
    handle ([] : MiddlewareChain Ctx) c = c := by
  rw [handle_eq_executeSuffix]
  rfl

/-- C5: `use` always succeeds (it is total), appends the handler at the
end of the internal sequence: the length grows by exactly one, every
previously registered entry is unchanged at its position, and the new
handler sits at the old length. -/
theorem use_appends_and_preserves (chain : MiddlewareChain σ)
    (f : MiddlewareFunc σ) :
    (use chain f).length = chain.length + 1 ∧
    ∀ i : Nat, (use chain f)[i]?
      = if i = chain.length then some f else chain[i]? := by
  constructor
  · simp [use]
  · intro i
    by_cases hi : i = chain.length
    · subst hi
      rw [if_pos rfl, use, List.getElem?_append_right (Nat.le_refl _)]
      simp
    · rw [if_neg hi]
      rcases Nat.lt_or_ge i chain.length with h | h
      · rw [use, List.getElem?_append, if_pos h]
      · have h1 : chain.length < i := Nat.lt_of_le_of_ne h (Ne.symm hi)
        rw [use, List.getElem?_append_right (Nat.le_of_lt h1),
          List.getElem?_eq_none
            (by simp only [List.length_cons, List.length_nil]; omega),
          List.getElem?_eq_none (Nat.le_of_lt h1)]

/-- C8: a freshly constructed Request has method "GET", path "/", empty
headers and empty body; a freshly constructed Response has status 200,
empty headers and empty body. -/
theorem fresh_request_response_defaults :
    ({} : Request).method = "GET" ∧ ({} : Request).path = "/" ∧
    ({} : Request).headers = [] ∧ ({} : Request).body = "" ∧
    ({} : Response).status = 200 ∧ ({} : Response).headers = [] ∧
    ({} : Response).body = "" :=
  ⟨rfl, rfl, rfl, rfl, rfl, rfl, rfl⟩

/-!
Concrete handlers over `Ctx` for the wrap-semantics scenario: a handler
that sets a response header before calling `next` and records the
observed status afterwards, and a downstream handler that overwrites the
status.  `mapInsert` is the unordered_map write (unique keys, last write
wins). -/

def mapInsert (k v : String) (m : List (String × String)) :
    List (String × String) :=
  if m.any (fun p => p.1 == k) then
    m.map (fun p => if p.1 == k then (k, v) else p)
  else m ++ [(k, v)]

def setRespStatus (s : Int) (c : Ctx) : Ctx :=
  { c with res := { c.res with status := s } }

def setRespHeader (k v : String) (c : Ctx) : Ctx :=
  { c with res := { c.res with headers := mapInsert k v c.res.headers } }

def recordStatusInBody (c : Ctx) : Ctx :=
  { c with res := { c.res with body := toString c.res.status } }

/-- A handler doing `pre` before its single synchronous continuation call
and `post` after it returns. -/
def wrapHandler (pre post : σ → σ) : MiddlewareFunc σ :=
  fun st next => post (next (pre st))

/-- C3: the continuation is a synchronous call running the whole
downstream remainder before returning, so a handler's post-continuation
code observes the state exactly as mutated by all downstream handlers.
Generally, `post` runs on precisely the state the downstream chain `rest`
produced from `pre st`; concretely, handler A sets header X before
calling next, downstream handler B overwrites the status with `s`, and
A's post-continuation code observes status `s` (recording it in the
body). -/
theorem continuation_wrap_semantics (pre post : σ → σ)
    (rest : MiddlewareChain σ) (st : σ) :
    handle (wrapHandler pre post :: rest) st
        = post (executeSuffix rest (pre st)) ∧
    ∀ s : Int,
      handle [wrapHandler (setRespHeader "X" "1") recordStatusInBody,
              wrapHandler (setRespStatus s) id] ⟨{}, {}⟩
        = ⟨{}, { status := s, headers := [("X", "1")],
                 body := toString s }⟩ := by
  constructor
  · rw [handle_eq_executeSuffix]
    rfl
  · intro s
    rw [handle_eq_executeSuffix]
    rfl

/-- A handler that invokes its continuation `m` times in sequence. -/
def repeatHandler (m : Nat) : MiddlewareFunc σ :=
  fun st next => next^[m] st

theorem iterate_loggedChain (fs : List (α → α)) (m : Nat) :
    ∀ (a : α) (l : List Nat),
      (fun s : LogSt α => executeSuffix (loggedChain 1 fs) s)^[m] (a, l)
        = ((fun x => applyAll fs x)^[m] a,
           l ++ List.flatten (List.replicate m (List.range' 1 fs.length))) := by
  induction m with
  | zero =>
    intro a l
    simp
  | succ m ih =>
    intro a l
    rw [Function.iterate_succ_apply, Function.iterate_succ_apply]
    rw [executeSuffix_loggedChain fs 1 a l, ih]
    simp [List.replicate_succ, List.append_assoc]

/-- C6: a handler at index k that invokes its continuation m times
re-executes the remainder of the chain from the same cursor point m
times, each invocation running the same downstream sequence: generally
the result is the m-fold iterate of the downstream chain, and with a
logged downstream chain the log records the downstream index sequence m
times over while the payload receives the downstream effect m times. -/
theorem continuation_invoked_m_times_repeats_remainder (m : Nat)
    (rest : MiddlewareChain σ) (st : σ) (fs : List (α → α)) (a : α) :
    handle (repeatHandler m :: rest) st
        = (fun s => executeSuffix rest s)^[m] st ∧
    handle (repeatHandler m :: loggedChain 1 fs) (a, ([] : List Nat))
        = ((fun x => applyAll fs x)^[m] a,
           List.flatten (List.replicate m (List.range' 1 fs.length))) := by
  constructor
  · rw [handle_eq_executeSuffix]
    rfl
  · rw [handle_eq_executeSuffix]
    show (fun s : LogSt α => executeSuffix (loggedChain 1 fs) s)^[m]
        (a, ([] : List Nat)) = _
    rw [iterate_loggedChain]
    rw [List.nil_append]

/-- C7: dispatch is repeatable and stateless between calls: `handle`
always starts the cursor at index 0 (the chain value itself carries no
cursor), and two dispatch calls on the same chain with fresh state pairs
are independent executions traversing the identical full handler
sequence `[0, ..., N-1]`, whatever the two payloads are. -/
theorem dispatch_repeatable_stateless (chain : MiddlewareChain σ)
    (st : σ) (fs : List (α → α)) (a b : α) :
    handle chain st = execute chain 0 st ∧
    (handle (loggedChain 0 fs) (a, ([] : List Nat))).2
      = List.range fs.length ∧
    (handle (loggedChain 0 fs) (b, ([] : List Nat))).2
      = List.range fs.length := by
  refine ⟨rfl, ?_, ?_⟩ <;>
  · rw [handle_eq_executeSuffix, executeSuffix_loggedChain,
      List.range_eq_range', List.nil_append]

/-- C9: `execute` never reads the middleware sequence out of range: when
the index is at or past the length the bounds guard returns the state
untouched (so in particular the continuation handed to the last handler,
bound to index N, is a no-op), and when the index is in range the lookup
happens at a proven in-bounds position. -/
theorem execute_bounds_safe (mws : MiddlewareChain σ) (index : Nat)
    (st : σ) :
    (mws.length ≤ index → execute mws index st = st) ∧
    (∀ h : index < mws.length,
      execute mws index st
        = (mws.get ⟨index, h⟩) st (fun st2 => execute mws (index + 1) st2)) ∧
    execute mws mws.length st = st := by
  refine ⟨fun hle => ?_, fun h => ?_, ?_⟩
  · rw [execute, dif_neg (by omega)]
  · rw [execute, dif_pos h]
  · rw [execute, dif_neg (by omega)]

/-- Concrete one-handler chain used to witness the bounds and
termination facts at explicit inputs. -/
def demoChain : MiddlewareChain Nat := [fun st next => next (st + 1)]

/-- Witness for C9 at concrete inputs: on a one-handler chain, `execute`
from index 2 (out of range) is the identity, and from index 0 it performs
the in-bounds lookup. -/
theorem execute_bounds_safe_witness :
    execute demoChain 2 5 = 5 ∧
    execute demoChain 0 5
      = (demoChain.get ⟨0, by simp [demoChain]⟩) 5
          (fun st2 => execute demoChain 1 st2) :=
  ⟨(execute_bounds_safe demoChain 2 5).1 (by simp [demoChain]),
   (execute_bounds_safe demoChain 0 5).2.1 (by simp [demoChain])⟩

/-- C10: dispatch terminates: `execute` coincides with the structurally
recursive run of the remaining suffix `middleware_[index..]`, and each
continuation call re-enters only at index+1, so the measure
`length - index` strictly decreases along every recursive path. -/
theorem dispatch_terminates (mws : MiddlewareChain σ) :
    (∀ (index : Nat) (st : σ),
        execute mws index st = executeSuffix (mws.drop index) st) ∧
    ∀ index : Nat, index < mws.length →
      mws.length - (index + 1) < mws.length - index :=
  ⟨fun index st => execute_eq_executeSuffix mws index st,
   fun _ h => by omega⟩

/-- Witness for C10 at concrete inputs. -/
theorem dispatch_terminates_witness :
    execute demoChain 0 4 = executeSuffix (demoChain.drop 0) 4 ∧
    demoChain.length - 1 < demoChain.length - 0 :=
  ⟨(dispatch_terminates demoChain).1 0 4,
   (dispatch_terminates demoChain).2 0 (by simp [demoChain])⟩
